import Mathlib

/-!
Shallow embedding of `fioctl/utils.py` (merge_streams, exec_stream, retry)
with verification of its specification's claims.

Lazy Python generators are modelled as Lean lists; Python truthiness of the
opaque element type is an explicit parameter `truthy : α → Bool`; fallible
callables are `α → Except ε β`.
-/

set_option maxHeartbeats 1000000

namespace Fioctl

variable {α β ε : Type}

/-- The tail phase of `merge_streams` for one side: Python's
`if head1: yield head1; for head1 in stream: yield head1`.
The already-fetched head is the first list element; if it is falsy the whole
side is dropped, otherwise the head and the rest of the stream are emitted. -/
def drain (truthy : α → Bool) : List α → List α
  | [] => []
  | a :: s => if truthy a then a :: s else []

/-- `merge_streams(stream, other_stream, comparison)` from `utils.py`.
The cursor state `(head, rest_of_stream)` is represented as the list
`head :: rest`; `fetch` returning `None` is the empty list.  The loop
`while head1 and head2` runs while both fetched heads are truthy; on exit the
two `if head` blocks become `drain`. -/
def merge_streams (truthy : α → Bool) (cmp : α → α → Bool) :
    List α → List α → List α
  | a :: s1, b :: s2 =>
    if truthy a && truthy b then
      if cmp a b then a :: merge_streams truthy cmp s1 (b :: s2)
      else b :: merge_streams truthy cmp (a :: s1) s2
    else drain truthy (a :: s1) ++ drain truthy (b :: s2)
  | s1, s2 => drain truthy s1 ++ drain truthy s2
termination_by s1 s2 => s1.length + s2.length

/-- Boolean sortedness of a list under a comparator: each adjacent pair
`(a, b)` satisfies `cmp a b`. -/
def sortedByB (cmp : α → α → Bool) : List α → Bool
  | [] => true
  | [_] => true
  | a :: b :: t => cmp a b && sortedByB cmp (b :: t)

/-- Python truthiness of an integer: zero is falsy. -/
def pyTruthyNat (n : ℕ) : Bool := decide (n ≠ 0)

/-- The default record comparator `x["id"] <= y["id"]`, on bare ids. -/
def leNat (a b : ℕ) : Bool := decide (a ≤ b)

/-! ## exec_stream

`exec_stream(callable, iterable, sync, capacity, rate)` drives a control loop:
each iteration attempts to consume one token from the rate limiter; on denial
it waits for at least one in-flight future, yields the completed results and
sleeps; it then pulls the next operation, ends the stream on a falsy pull
(draining all in-flight futures), runs `sync` operations inline, and submits
the rest to the worker pool.

The run is modelled as the list of observable events of the control loop.
The callable is `f : α → Except ε β` (`.error` = the call raised); the
worker pool and the wall clock are abstracted into an environment supplying
the nondeterministic choices: which futures the two `concurrent.futures.wait`
calls report as done (and in which order), and how many tokens the bucket
refill adds before each `consume` call. -/

/-- One observable event of the `exec_stream` control loop. -/
inductive Ev (α β ε : Type) where
  /-- `limiter.consume("stream", 1)` returned `ok` (a token is debited
  exactly when `ok = true`). -/
  | consume (ok : Bool)
  /-- `next(iterable, None)` returned the operation `a`. -/
  | pulled (a : α)
  /-- `next(iterable, None)` returned `None`: the input is exhausted. -/
  | pulledNone
  /-- a `sync` operation was executed inline on the control thread. -/
  | inlineRun (a : α)
  /-- the pair `(a, b)` was yielded to the consumer. -/
  | yielded (a : α) (b : β)
  /-- `a` was submitted to the pool; `n` is the number of in-flight
  (submitted, not yet collected) futures just after the submission. -/
  | submitted (a : α) (n : ℕ)
  /-- an exception escaped the generator to the consumer. -/
  | raised (e : ε)
  deriving DecidableEq

/-- Modelled from the spec: the external `token_bucket` limiter and
`concurrent.futures` scheduling, reduced to the choices the control loop can
observe.  `refill k` is the number of whole tokens the bucket gained before
the `k`-th `consume` call; `pick k fs` is the `(done, pending)` split that
`wait(futures, FIRST_COMPLETED)` reports at iteration `k`; `drainOrder fs` is
the order in which the final `wait(futures)` hands back all futures. -/
structure Env (α : Type) where
  refill : ℕ → ℕ
  pick : ℕ → List α → List α × List α
  drainOrder : List α → List α

/-- An environment is valid when `wait` neither duplicates, drops nor invents
futures: each `pick` splits the in-flight set into done and pending, and the
final drain returns exactly the in-flight set. -/
def ValidEnv (env : Env α) : Prop :=
  (∀ k fs, ((env.pick k fs).1 ++ (env.pick k fs).2).Perm fs) ∧
  (∀ fs : List α, (env.drainOrder fs).Perm fs)

/-- Collecting `future.result()` for each future of `l` in order: yields the
pair on success; on `.error` the exception is re-raised out of the generator
(second component `true`) and nothing further happens. -/
def collect (f : α → Except ε β) : List α → List (Ev α β ε) × Bool
  | [] => ([], false)
  | a :: as =>
    match f a with
    | .ok b =>
      let r := collect f as
      (Ev.yielded a b :: r.1, r.2)
    | .error e => ([Ev.raised e], true)

/-- Result of the top-of-loop limiter check, lines 120-128 of `utils.py`:
events observed, remaining tokens, remaining in-flight futures, and whether a
collected future re-raised (aborting the generator). -/
structure CStep (α β ε : Type) where
  evs : List (Ev α β ε)
  tokens : ℕ
  futures : List α
  aborted : Bool
  deriving DecidableEq

/-- The top of one loop iteration: refill the bucket (capped at `bcap`), try
to consume one token; on denial, wait for the first completed futures, yield
each of them and keep the rest in flight (the `time.sleep` is invisible
here). -/
def consumeStep (f : α → Except ε β) (bcap : ℕ) (env : Env α)
    (k tokens : ℕ) (futures : List α) : CStep α β ε :=
  let t1 := min (tokens + env.refill k) bcap
  if 1 ≤ t1 then ⟨[Ev.consume true], t1 - 1, futures, false⟩
  else
    let dp := env.pick k futures
    let c := collect f dp.1
    ⟨Ev.consume false :: c.1, t1, dp.2, c.2⟩

/-- The `while True:` loop of `exec_stream`, carrying the iteration counter
`k` (for the environment), the limiter tokens, the in-flight futures and the
remaining input.  Every iteration starts with the limiter check; a falsy pull
(or exhaustion) waits for all in-flight futures, yields each and stops; a
`sync` operation runs inline and is yielded immediately; any other operation
is submitted and the loop continues. -/
def go (f : α → Except ε β) (sync truthy : α → Bool) (bcap : ℕ) (env : Env α) :
    ℕ → ℕ → List α → List α → List (Ev α β ε)
  | k, tokens, futures, [] =>
    let s := consumeStep f bcap env k tokens futures
    if s.aborted then s.evs
    else s.evs ++ Ev.pulledNone :: (collect f (env.drainOrder s.futures)).1
  | k, tokens, futures, a :: rest =>
    let s := consumeStep f bcap env k tokens futures
    if s.aborted then s.evs
    else
      s.evs ++ Ev.pulled a ::
        (if truthy a = false then (collect f (env.drainOrder s.futures)).1
         else if sync a = true then
           match f a with
           | .ok b => Ev.inlineRun a :: Ev.yielded a b ::
               go f sync truthy bcap env (k + 1) s.tokens s.futures rest
           | .error e => [Ev.inlineRun a, Ev.raised e]
         else Ev.submitted a (s.futures.length + 1) ::
           go f sync truthy bcap env (k + 1) s.tokens
             (s.futures ++ [a]) rest)

/-- `exec_stream` itself: fresh limiter holding `tokens0` tokens (the
`token_bucket` bucket starts at full burst), no futures in flight, iteration
counter 0. -/
def exec_stream (f : α → Except ε β) (sync truthy : α → Bool)
    (bcap tokens0 : ℕ) (env : Env α) (input : List α) : List (Ev α β ε) :=
  go f sync truthy bcap env 0 tokens0 [] input

/-- The `(operation, result)` pairs the generator yielded, in order. -/
def outputOf (evs : List (Ev α β ε)) : List (α × β) :=
  evs.filterMap fun e => match e with
    | .yielded a b => some (a, b)
    | _ => none

/-- The operations pulled from the input iterable, in order. -/
def pulledOf (evs : List (Ev α β ε)) : List α :=
  evs.filterMap fun e => match e with
    | .pulled a => some a
    | _ => none

/-- The operations submitted to the worker pool, in order. -/
def submittedOf (evs : List (Ev α β ε)) : List α :=
  evs.filterMap fun e => match e with
    | .submitted a _ => some a
    | _ => none

/-- The operations executed inline on the control thread, in order. -/
def inlinedOf (evs : List (Ev α β ε)) : List α :=
  evs.filterMap fun e => match e with
    | .inlineRun a => some a
    | _ => none

/-- The exceptions that escaped to the consumer. -/
def raisedOf (evs : List (Ev α β ε)) : List ε :=
  evs.filterMap fun e => match e with
    | .raised e' => some e'
    | _ => none

/-- The in-flight counts recorded at each pool submission. -/
def inflightOf (evs : List (Ev α β ε)) : List ℕ :=
  evs.filterMap fun e => match e with
    | .submitted _ n => some n
    | _ => none

/-- The number of tokens debited from the limiter (successful `consume`s). -/
def debitsOf (evs : List (Ev α β ε)) : ℕ :=
  evs.countP fun e => match e with
    | .consume true => true
    | _ => false

/-- The event list of an all-async run under a never-denying limiter: each
operation is pulled and submitted, and all yields happen in the final drain
(which is appended separately). -/
def asyncShape (fut : List α) : List α → List (Ev α β ε)
  | [] => [Ev.consume true, Ev.pulledNone]
  | a :: rest => Ev.consume true :: Ev.pulled a ::
      Ev.submitted a (fut.length + 1) :: asyncShape (fut ++ [a]) rest

/-! ## retry

`retry(callable, *args, **kwargs)` pops the `attempt` counter from `kwargs`
(default 0), invokes the callable, and on any exception sleeps
`min(0.5 * 2**attempt, 4)` seconds and recurses with `attempt + 1`.  The
callable's behaviour is `beh : ℕ → Except ε β`, the outcome of its
invocation at attempt counter `n`.  Since the Python recursion has no bound,
the model is fuel-indexed: `none` means the callable failed on every one of
the first `fuel` invocations and `retry` is still looping (it has neither
returned nor raised); `some` records the completed call chain. -/

/-- The backoff `min(.5 * math.pow(2, attempt), 4)` in seconds. -/
def backoff (attempt : ℕ) : ℚ := min ((1 : ℚ) / 2 * 2 ^ attempt) 4

/-- What a completed `retry` call chain did: the Python return value (there
is no `return` statement, so `none` = Python `None`), the number of times the
callable was invoked, and the sleeps performed after each failure. -/
structure RetryOut (β : Type) where
  ret : Option β
  calls : ℕ
  sleeps : List ℚ
  deriving DecidableEq

/-- `retry` itself, fuel-indexed.  `beh attempt` is the callable's outcome on
the invocation made with that attempt counter; a success returns (dropping
the callable's value), a failure sleeps `backoff attempt` and recurses. -/
def retryRun (beh : ℕ → Except ε β) : ℕ → ℕ → Option (RetryOut β)
  | 0, _ => none
  | fuel + 1, attempt =>
    match beh attempt with
    | .ok _ => some ⟨none, 1, []⟩
    | .error _ =>
      match retryRun beh fuel (attempt + 1) with
      | none => none
      | some r => some ⟨r.ret, r.calls + 1, backoff attempt :: r.sleeps⟩


/-- A deterministic schedule for concrete runs: one token refilled before
each consume, every in-flight future already completed at each wait, final
drain in submission order. -/
def envGreedy : Env ℕ := ⟨fun _ => 1, fun _ fs => (fs, []), id⟩

/-- Every in-flight count recorded at a submission is at most cap. -/
def inflightBounded (cap : ℕ) (evs : List (Ev α β ε)) : Prop :=
  ∀ n ∈ inflightOf evs, n ≤ cap

/-- The behaviour of a callable that raises on its first two invocations and
succeeds from the third on. -/
def failTwice : ℕ → Except Unit Unit :=
  fun n => if n < 2 then .error () else .ok ()

lemma drain_of_truthy {truthy : α → Bool} {l : List α}
    (h : ∀ a ∈ l, truthy a = true) : drain truthy l = l := by
  cases l with
  | nil => rfl
  | cons a s => simp [drain, h a (by simp)]

lemma merge_nil_left {truthy : α → Bool} {cmp : α → α → Bool} (B : List α) :
    merge_streams truthy cmp [] B = drain truthy B := by
  rw [merge_streams] <;> simp [drain]

lemma merge_nil_right {truthy : α → Bool} {cmp : α → α → Bool} (A : List α) :
    merge_streams truthy cmp A [] = drain truthy A := by
  cases A with
  | nil => rw [merge_streams] <;> simp [drain]
  | cons a s => rw [merge_streams] <;> simp [drain]

lemma sortedByB_cons {cmp : α → α → Bool} {a : α} {l : List α} :
    sortedByB cmp (a :: l) = true ↔
      (∀ x ∈ l.head?, cmp a x = true) ∧ sortedByB cmp l = true := by
  cases l with
  | nil => simp [sortedByB]
  | cons b t => simp [sortedByB, Option.mem_def]

/-- On inputs whose elements are all truthy, the merge is a permutation of the
concatenation of its inputs. -/
lemma merge_perm {truthy : α → Bool} {cmp : α → α → Bool} :
    ∀ A B : List α, (∀ a ∈ A, truthy a = true) → (∀ b ∈ B, truthy b = true) →
      (merge_streams truthy cmp A B).Perm (A ++ B) := by
  intro A B
  induction A, B using merge_streams.induct truthy cmp with
  | case1 a s1 b s2 htr hc ih =>
    intro hA hB
    rw [merge_streams, if_pos htr, if_pos hc]
    exact ((ih (fun x hx => hA x (by simp [hx])) hB).cons a)
  | case2 a s1 b s2 htr hc ih =>
    intro hA hB
    rw [merge_streams, if_pos htr, if_neg hc]
    exact ((ih hA (fun x hx => hB x (by simp [hx]))).cons b).trans
      List.perm_middle.symm
  | case3 a s1 b s2 htr =>
    intro hA hB
    exact absurd (by simp [hA a (by simp), hB b (by simp)]) htr
  | case4 s1 s2 hne =>
    intro hA hB
    cases s1 with
    | nil => rw [merge_nil_left, drain_of_truthy hB]; simp
    | cons a t1 =>
      cases s2 with
      | nil => rw [merge_nil_right, drain_of_truthy hA]; simp
      | cons b t2 => exact False.elim (hne a t1 b t2 rfl rfl)

/-- On all-truthy sorted inputs with a total comparator, the merge is sorted,
and its head comes from one of the input heads. -/
lemma merge_sorted {truthy : α → Bool} {cmp : α → α → Bool}
    (htot : ∀ a b : α, cmp a b = true ∨ cmp b a = true) :
    ∀ A B : List α, (∀ a ∈ A, truthy a = true) → (∀ b ∈ B, truthy b = true) →
      sortedByB cmp A = true → sortedByB cmp B = true →
      sortedByB cmp (merge_streams truthy cmp A B) = true ∧
      ∀ x ∈ (merge_streams truthy cmp A B).head?,
        A.head? = some x ∨ B.head? = some x := by
  intro A B
  induction A, B using merge_streams.induct truthy cmp with
  | case1 a s1 b s2 htr hc ih =>
    intro hA hB sA sB
    have hA' : ∀ x ∈ s1, truthy x = true := fun x hx => hA x (by simp [hx])
    obtain ⟨ih1, ih2⟩ := ih hA' hB (sortedByB_cons.mp sA).2 sB
    rw [merge_streams, if_pos htr, if_pos hc]
    refine ⟨sortedByB_cons.mpr ⟨?_, ih1⟩, by simp⟩
    intro x hx
    rcases ih2 x hx with h | h
    · exact (sortedByB_cons.mp sA).1 x h
    · simp at h; subst h; exact hc
  | case2 a s1 b s2 htr hc ih =>
    intro hA hB sA sB
    have hB' : ∀ x ∈ s2, truthy x = true := fun x hx => hB x (by simp [hx])
    obtain ⟨ih1, ih2⟩ := ih hA hB' sA (sortedByB_cons.mp sB).2
    rw [merge_streams, if_pos htr, if_neg hc]
    have hba : cmp b a = true := (htot a b).resolve_left (by simpa using hc)
    refine ⟨sortedByB_cons.mpr ⟨?_, ih1⟩, by simp⟩
    intro x hx
    rcases ih2 x hx with h | h
    · simp at h; subst h; exact hba
    · exact (sortedByB_cons.mp sB).1 x h
  | case3 a s1 b s2 htr =>
    intro hA hB _ _
    exact absurd (by simp [hA a (by simp), hB b (by simp)]) htr
  | case4 s1 s2 hne =>
    intro hA hB sA sB
    cases s1 with
    | nil => rw [merge_nil_left, drain_of_truthy hB]; exact ⟨sB, by simp⟩
    | cons a t1 =>
      cases s2 with
      | nil => rw [merge_nil_right, drain_of_truthy hA]; exact ⟨sA, by simp⟩
      | cons b t2 => exact False.elim (hne a t1 b t2 rfl rfl)

section ExecLemmas

variable {f : α → Except ε β} {g : α → β} {sync truthy : α → Bool}
variable {bcap : ℕ} {env : Env α}

@[simp] lemma outputOf_nil : outputOf ([] : List (Ev α β ε)) = [] := rfl
@[simp] lemma outputOf_append (l1 l2 : List (Ev α β ε)) :
    outputOf (l1 ++ l2) = outputOf l1 ++ outputOf l2 := by
  simp [outputOf]
@[simp] lemma pulledOf_nil : pulledOf ([] : List (Ev α β ε)) = [] := rfl
@[simp] lemma pulledOf_append (l1 l2 : List (Ev α β ε)) :
    pulledOf (l1 ++ l2) = pulledOf l1 ++ pulledOf l2 := by
  simp [pulledOf]
@[simp] lemma submittedOf_nil : submittedOf ([] : List (Ev α β ε)) = [] := rfl
@[simp] lemma submittedOf_append (l1 l2 : List (Ev α β ε)) :
    submittedOf (l1 ++ l2) = submittedOf l1 ++ submittedOf l2 := by
  simp [submittedOf]
@[simp] lemma inlinedOf_nil : inlinedOf ([] : List (Ev α β ε)) = [] := rfl
@[simp] lemma inlinedOf_append (l1 l2 : List (Ev α β ε)) :
    inlinedOf (l1 ++ l2) = inlinedOf l1 ++ inlinedOf l2 := by
  simp [inlinedOf]
@[simp] lemma raisedOf_nil : raisedOf ([] : List (Ev α β ε)) = [] := rfl
@[simp] lemma raisedOf_append (l1 l2 : List (Ev α β ε)) :
    raisedOf (l1 ++ l2) = raisedOf l1 ++ raisedOf l2 := by
  simp [raisedOf]
@[simp] lemma inflightOf_nil : inflightOf ([] : List (Ev α β ε)) = [] := rfl
@[simp] lemma inflightOf_append (l1 l2 : List (Ev α β ε)) :
    inflightOf (l1 ++ l2) = inflightOf l1 ++ inflightOf l2 := by
  simp [inflightOf]
@[simp] lemma debitsOf_nil : debitsOf ([] : List (Ev α β ε)) = 0 := rfl
@[simp] lemma debitsOf_append (l1 l2 : List (Ev α β ε)) :
    debitsOf (l1 ++ l2) = debitsOf l1 + debitsOf l2 := by
  simp [debitsOf]

@[simp] lemma outputOf_cons (e : Ev α β ε) (l : List (Ev α β ε)) :
    outputOf (e :: l) =
      (match e with | .yielded a b => [(a, b)] | _ => []) ++ outputOf l := by
  cases e <;> simp [outputOf]
@[simp] lemma pulledOf_cons (e : Ev α β ε) (l : List (Ev α β ε)) :
    pulledOf (e :: l) =
      (match e with | .pulled a => [a] | _ => []) ++ pulledOf l := by
  cases e <;> simp [pulledOf]
@[simp] lemma submittedOf_cons (e : Ev α β ε) (l : List (Ev α β ε)) :
    submittedOf (e :: l) =
      (match e with | .submitted a _ => [a] | _ => []) ++ submittedOf l := by
  cases e <;> simp [submittedOf]
@[simp] lemma inlinedOf_cons (e : Ev α β ε) (l : List (Ev α β ε)) :
    inlinedOf (e :: l) =
      (match e with | .inlineRun a => [a] | _ => []) ++ inlinedOf l := by
  cases e <;> simp [inlinedOf]
@[simp] lemma raisedOf_cons (e : Ev α β ε) (l : List (Ev α β ε)) :
    raisedOf (e :: l) =
      (match e with | .raised e' => [e'] | _ => []) ++ raisedOf l := by
  cases e <;> simp [raisedOf]
@[simp] lemma inflightOf_cons (e : Ev α β ε) (l : List (Ev α β ε)) :
    inflightOf (e :: l) =
      (match e with | .submitted _ n => [n] | _ => []) ++ inflightOf l := by
  cases e <;> simp [inflightOf]
@[simp] lemma debitsOf_cons (e : Ev α β ε) (l : List (Ev α β ε)) :
    debitsOf (e :: l) =
      (match e with | .consume true => 1 | _ => 0) + debitsOf l := by
  cases e with
  | consume ok => cases ok <;> simp [debitsOf, Nat.add_comm]
  | _ => simp [debitsOf]

/-- Each event produced by collecting futures is a yield or a raise. -/
lemma collect_events {f : α → Except ε β} :
    ∀ (l : List α), ∀ e ∈ (collect f l).1,
      (∃ a b, e = Ev.yielded a b) ∨ ∃ er, e = Ev.raised er := by
  intro l
  induction l with
  | nil => simp [collect]
  | cons a as ih =>
    intro e he
    rw [collect] at he
    match hf : f a with
    | .ok b =>
      rw [hf] at he
      simp at he
      rcases he with rfl | he
      · exact Or.inl ⟨a, b, rfl⟩
      · exact ih e he
    | .error er =>
      rw [hf] at he
      simp at he
      exact Or.inr ⟨er, he⟩

@[simp] lemma pulledOf_collect {f : α → Except ε β} (l : List α) :
    pulledOf (collect f l).1 = [] := by
  rw [pulledOf, List.filterMap_eq_nil_iff]
  intro e he
  rcases collect_events l e he with ⟨a, b, rfl⟩ | ⟨er, rfl⟩ <;> rfl

@[simp] lemma submittedOf_collect {f : α → Except ε β} (l : List α) :
    submittedOf (collect f l).1 = [] := by
  rw [submittedOf, List.filterMap_eq_nil_iff]
  intro e he
  rcases collect_events l e he with ⟨a, b, rfl⟩ | ⟨er, rfl⟩ <;> rfl

@[simp] lemma inlinedOf_collect {f : α → Except ε β} (l : List α) :
    inlinedOf (collect f l).1 = [] := by
  rw [inlinedOf, List.filterMap_eq_nil_iff]
  intro e he
  rcases collect_events l e he with ⟨a, b, rfl⟩ | ⟨er, rfl⟩ <;> rfl

@[simp] lemma inflightOf_collect {f : α → Except ε β} (l : List α) :
    inflightOf (collect f l).1 = [] := by
  rw [inflightOf, List.filterMap_eq_nil_iff]
  intro e he
  rcases collect_events l e he with ⟨a, b, rfl⟩ | ⟨er, rfl⟩ <;> rfl

@[simp] lemma debitsOf_collect {f : α → Except ε β} (l : List α) :
    debitsOf (collect f l).1 = 0 := by
  rw [debitsOf, List.countP_eq_zero]
  intro e he
  rcases collect_events l e he with ⟨a, b, rfl⟩ | ⟨er, rfl⟩ <;> simp

/-- Collecting futures that all succeed yields exactly their pairs. -/
lemma collect_ok {f : α → Except ε β} {g : α → β}
    (hf : ∀ a, f a = .ok (g a)) :
    ∀ l : List α, collect f l = (l.map fun a => Ev.yielded a (g a), false) := by
  intro l
  induction l with
  | nil => rfl
  | cons a as ih => rw [collect, hf a]; simp [ih]

/-- Collecting a run of successes followed by a failure yields the successful
pairs, re-raises the failure and stops. -/
lemma collect_error {f : α → Except ε β} {g : α → β} {x : α} {e : ε}
    (hx : f x = .error e) :
    ∀ pre post : List α, (∀ y ∈ pre, f y = .ok (g y)) →
      collect f (pre ++ x :: post) =
        ((pre.map fun y => Ev.yielded y (g y)) ++ [Ev.raised e], true) := by
  intro pre
  induction pre with
  | nil => intro post _; rw [List.nil_append, collect, hx]; rfl
  | cons y ys ih =>
    intro post hpre
    rw [List.cons_append, collect, hpre y (by simp)]
    simp [ih post fun z hz => hpre z (by simp [hz])]

/-- Characterization of the limiter step when a token is available. -/
lemma consumeStep_pos {f : α → Except ε β} {k tokens : ℕ} {futures : List α}
    (h : 1 ≤ min (tokens + env.refill k) bcap) :
    consumeStep f bcap env k tokens futures =
      ⟨[Ev.consume true], min (tokens + env.refill k) bcap - 1, futures, false⟩ := by
  rw [consumeStep]
  simp [h]

/-- Characterization of the limiter step on denial. -/
lemma consumeStep_neg {f : α → Except ε β} {k tokens : ℕ} {futures : List α}
    (h : ¬ 1 ≤ min (tokens + env.refill k) bcap) :
    consumeStep f bcap env k tokens futures =
      ⟨Ev.consume false :: (collect f (env.pick k futures).1).1,
        min (tokens + env.refill k) bcap,
        (env.pick k futures).2,
        (collect f (env.pick k futures).1).2⟩ := by
  rw [consumeStep]
  simp [h]

/-- Every operation pulled and truthy is either run inline or submitted to
the pool, exactly once in total (multiset equation), in any environment and
for any callable. -/
lemma admission_perm (f : α → Except ε β) (sync truthy : α → Bool)
    (bcap : ℕ) (env : Env α) :
    ∀ (input : List α) (k tokens : ℕ) (futures : List α),
      ((pulledOf (go f sync truthy bcap env k tokens futures input)).filter
        truthy).Perm
        (inlinedOf (go f sync truthy bcap env k tokens futures input) ++
         submittedOf (go f sync truthy bcap env k tokens futures input)) := by
  intro input
  induction input with
  | nil =>
    intro k tokens futures
    by_cases h : 1 ≤ min (tokens + env.refill k) bcap
    · simp [go, consumeStep_pos h]
    · rw [go]
      rw [consumeStep_neg h]
      cases hab : (collect f (env.pick k futures).1).2 <;> simp [hab]
  | cons a rest ih =>
    intro k tokens futures
    by_cases h : 1 ≤ min (tokens + env.refill k) bcap
    · rw [go, consumeStep_pos h]
      simp only []
      by_cases hta : truthy a = false
      · simp [hta]
      · rw [Bool.not_eq_false] at hta
        by_cases hsa : sync a = true
        · rcases hfa : f a with e | b
          · simp [hta, hsa, hfa]
          · simp [hta, hsa, hfa]
            exact ih (k + 1) (min (tokens + env.refill k) bcap - 1) futures
        · rw [Bool.not_eq_true] at hsa
          simp [hta, hsa]
          exact ((ih (k + 1) (min (tokens + env.refill k) bcap - 1)
            (futures ++ [a])).cons a).trans List.perm_middle.symm
    · rw [go, consumeStep_neg h]
      cases hab : (collect f (env.pick k futures).1).2
      · simp only [hab, if_neg Bool.false_ne_true]
        by_cases hta : truthy a = false
        · simp [hta]
        · rw [Bool.not_eq_false] at hta
          by_cases hsa : sync a = true
          · rcases hfa : f a with e | b
            · simp [hta, hsa, hfa]
            · simp [hta, hsa, hfa]
              exact ih (k + 1) (min (tokens + env.refill k) bcap)
                (env.pick k futures).2
          · rw [Bool.not_eq_true] at hsa
            simp [hta, hsa]
            exact ((ih (k + 1) (min (tokens + env.refill k) bcap)
              ((env.pick k futures).2 ++ [a])).cons a).trans
              List.perm_middle.symm
      · simp [hab]

lemma submitted_not_mem_collect {f : α → Except ε β} (l : List α) (a : α)
    (n : ℕ) : Ev.submitted a n ∉ (collect f l).1 := by
  intro h
  rcases collect_events l _ h with ⟨x, y, hx⟩ | ⟨er, hx⟩ <;> simp at hx

/-- Only operations with `sync` false are ever submitted to the pool. -/
lemma submitted_not_sync (f : α → Except ε β) (sync truthy : α → Bool)
    (bcap : ℕ) (env : Env α) :
    ∀ (input : List α) (k tokens : ℕ) (futures : List α) (a : α) (n : ℕ),
      Ev.submitted a n ∈ go f sync truthy bcap env k tokens futures input →
      sync a = false := by
  intro input
  induction input with
  | nil =>
    intro k tokens futures a n hmem
    by_cases h : 1 ≤ min (tokens + env.refill k) bcap
    · simp [go, consumeStep_pos h] at hmem
      exact absurd hmem (submitted_not_mem_collect _ _ _)
    · rw [go, consumeStep_neg h] at hmem
      cases hab : (collect f (env.pick k futures).1).2
      · simp [hab] at hmem
        rcases hmem with hmem | hmem <;>
          exact absurd hmem (submitted_not_mem_collect _ _ _)
      · simp [hab] at hmem
        exact absurd hmem (submitted_not_mem_collect _ _ _)
  | cons a0 rest ih =>
    intro k tokens futures a n hmem
    by_cases h : 1 ≤ min (tokens + env.refill k) bcap
    · rw [go, consumeStep_pos h] at hmem
      by_cases hta : truthy a0 = false
      · simp [hta] at hmem
        exact absurd hmem (submitted_not_mem_collect _ _ _)
      · rw [Bool.not_eq_false] at hta
        by_cases hsa : sync a0 = true
        · rcases hfa : f a0 with e | b
          · simp [hta, hsa, hfa] at hmem
          · simp [hta, hsa, hfa] at hmem
            exact ih _ _ _ _ _ hmem
        · rw [Bool.not_eq_true] at hsa
          simp [hta, hsa] at hmem
          rcases hmem with ⟨rfl, rfl⟩ | hmem
          · exact hsa
          · exact ih _ _ _ _ _ hmem
    · rw [go, consumeStep_neg h] at hmem
      cases hab : (collect f (env.pick k futures).1).2
      · simp only [hab, if_neg Bool.false_ne_true] at hmem
        by_cases hta : truthy a0 = false
        · simp [hta] at hmem
          rcases hmem with hmem | hmem <;>
            exact absurd hmem (submitted_not_mem_collect _ _ _)
        · rw [Bool.not_eq_false] at hta
          by_cases hsa : sync a0 = true
          · rcases hfa : f a0 with e | b
            · simp [hta, hsa, hfa] at hmem
              exact absurd hmem (submitted_not_mem_collect _ _ _)
            · simp [hta, hsa, hfa] at hmem
              rcases hmem with hmem | hmem
              · exact absurd hmem (submitted_not_mem_collect _ _ _)
              · exact ih _ _ _ _ _ hmem
          · rw [Bool.not_eq_true] at hsa
            simp [hta, hsa] at hmem
            rcases hmem with hmem | ⟨rfl, rfl⟩ | hmem
            · exact absurd hmem (submitted_not_mem_collect _ _ _)
            · exact hsa
            · exact ih _ _ _ _ _ hmem
      · simp [hab] at hmem
        exact absurd hmem (submitted_not_mem_collect _ _ _)

/-- The in-flight count recorded at a submission never exceeds the number of
futures already in flight plus the number of remaining input operations. -/
lemma inflight_le (f : α → Except ε β) (sync truthy : α → Bool)
    (bcap : ℕ) (env : Env α) (henv : ValidEnv env) :
    ∀ (input : List α) (k tokens : ℕ) (futures : List α) (n : ℕ),
      n ∈ inflightOf (go f sync truthy bcap env k tokens futures input) →
      n ≤ futures.length + input.length := by
  have hpick : ∀ k (fs : List α), ((env.pick k fs).2).length ≤ fs.length := by
    intro k fs
    have := (henv.1 k fs).length_eq
    simp at this
    omega
  intro input
  induction input with
  | nil =>
    intro k tokens futures n hmem
    by_cases h : 1 ≤ min (tokens + env.refill k) bcap
    · simp [go, consumeStep_pos h] at hmem
    · rw [go, consumeStep_neg h] at hmem
      cases hab : (collect f (env.pick k futures).1).2 <;> simp [hab] at hmem
  | cons a0 rest ih =>
    intro k tokens futures n hmem
    by_cases h : 1 ≤ min (tokens + env.refill k) bcap
    · rw [go, consumeStep_pos h] at hmem
      by_cases hta : truthy a0 = false
      · simp [hta] at hmem
      · rw [Bool.not_eq_false] at hta
        by_cases hsa : sync a0 = true
        · rcases hfa : f a0 with e | b
          · simp [hta, hsa, hfa] at hmem
          · simp [hta, hsa, hfa] at hmem
            have := ih _ _ _ _ hmem
            simp only [List.length_cons]
            omega
        · rw [Bool.not_eq_true] at hsa
          simp [hta, hsa] at hmem
          rcases hmem with rfl | hmem
          · simp only [List.length_cons]
            omega
          · have := ih _ _ _ _ hmem
            simp only [List.length_append, List.length_cons, List.length_nil] at this ⊢
            omega
    · rw [go, consumeStep_neg h] at hmem
      cases hab : (collect f (env.pick k futures).1).2
      · simp only [hab, if_neg Bool.false_ne_true] at hmem
        by_cases hta : truthy a0 = false
        · simp [hta] at hmem
        · rw [Bool.not_eq_false] at hta
          by_cases hsa : sync a0 = true
          · rcases hfa : f a0 with e | b
            · simp [hta, hsa, hfa] at hmem
            · simp [hta, hsa, hfa] at hmem
              have h1 := ih _ _ _ _ hmem
              have h2 := hpick k futures
              simp only [List.length_cons]
              omega
          · rw [Bool.not_eq_true] at hsa
            simp [hta, hsa] at hmem
            rcases hmem with rfl | hmem
            · have := hpick k futures
              simp only [List.length_cons]
              omega
            · have h1 := ih _ _ _ _ hmem
              have h2 := hpick k futures
              simp only [List.length_append, List.length_cons, List.length_nil] at h1 ⊢
              omega
      · simp [hab] at hmem

@[simp] lemma outputOf_yields (g : α → β) (l : List α) :
    outputOf (l.map fun a => Ev.yielded a (g a) : List (Ev α β ε)) =
      l.map fun a => (a, g a) := by
  induction l with
  | nil => rfl
  | cons a as ih => simp [ih]

@[simp] lemma pulledOf_yields (g : α → β) (l : List α) :
    pulledOf (l.map fun a => Ev.yielded a (g a) : List (Ev α β ε)) = [] := by
  induction l with
  | nil => rfl
  | cons a as ih => simp [ih]

@[simp] lemma submittedOf_yields (g : α → β) (l : List α) :
    submittedOf (l.map fun a => Ev.yielded a (g a) : List (Ev α β ε)) = [] := by
  induction l with
  | nil => rfl
  | cons a as ih => simp [ih]

@[simp] lemma inlinedOf_yields (g : α → β) (l : List α) :
    inlinedOf (l.map fun a => Ev.yielded a (g a) : List (Ev α β ε)) = [] := by
  induction l with
  | nil => rfl
  | cons a as ih => simp [ih]

@[simp] lemma raisedOf_yields (g : α → β) (l : List α) :
    raisedOf (l.map fun a => Ev.yielded a (g a) : List (Ev α β ε)) = [] := by
  induction l with
  | nil => rfl
  | cons a as ih => simp [ih]

@[simp] lemma inflightOf_yields (g : α → β) (l : List α) :
    inflightOf (l.map fun a => Ev.yielded a (g a) : List (Ev α β ε)) = [] := by
  induction l with
  | nil => rfl
  | cons a as ih => simp [ih]

@[simp] lemma debitsOf_yields (g : α → β) (l : List α) :
    debitsOf (l.map fun a => Ev.yielded a (g a) : List (Ev α β ε)) = 0 := by
  induction l with
  | nil => rfl
  | cons a as ih => simp [ih]

@[simp] lemma map_fst_pair_comp (g : α → β) (l : List α) :
    l.map (Prod.fst ∘ fun a => (a, g a)) = l := by
  induction l with
  | nil => rfl
  | cons a as ih => rw [List.map_cons, ih]; rfl

/-- A run in which every call succeeds: every input operation is pulled, in
input order; the yielded pairs carry exactly the initial futures plus the
input operations (as a multiset); nothing is raised. -/
lemma run_ok {f : α → Except ε β} {g : α → β} {sync truthy : α → Bool}
    {bcap : ℕ} {env : Env α}
    (hf : ∀ a, f a = .ok (g a)) (henv : ValidEnv env) :
    ∀ (input : List α) (k tokens : ℕ) (futures : List α),
      (∀ a ∈ input, truthy a = true) →
      pulledOf (go f sync truthy bcap env k tokens futures input) = input ∧
      ((outputOf (go f sync truthy bcap env k tokens futures input)).map
        Prod.fst).Perm (futures ++ input) ∧
      raisedOf (go f sync truthy bcap env k tokens futures input) = [] := by
  intro input
  induction input with
  | nil =>
    intro k tokens futures _
    by_cases h : 1 ≤ min (tokens + env.refill k) bcap
    · rw [go, consumeStep_pos h]
      simp [collect_ok hf]
      exact henv.2 futures
    · rw [go, consumeStep_neg h, collect_ok hf]
      simp [collect_ok hf]
      exact ((henv.2 _).append_left _).trans (henv.1 k futures)
  | cons a0 rest ih =>
    intro k tokens futures hin
    have hta : truthy a0 = true := hin a0 (by simp)
    have hin' : ∀ a ∈ rest, truthy a = true := fun a ha => hin a (by simp [ha])
    by_cases h : 1 ≤ min (tokens + env.refill k) bcap
    · rw [go, consumeStep_pos h]
      by_cases hsa : sync a0 = true
      · obtain ⟨ih1, ih2, ih3⟩ := ih (k + 1)
          (min (tokens + env.refill k) bcap - 1) futures hin'
        simp [hta, hsa, hf a0, ih1, ih3]
        exact (ih2.cons a0).trans List.perm_middle.symm
      · rw [Bool.not_eq_true] at hsa
        obtain ⟨jh1, jh2, jh3⟩ := ih (k + 1)
          (min (tokens + env.refill k) bcap - 1) (futures ++ [a0]) hin'
        simp [hta, hsa, jh1, jh3]
        have : (futures ++ [a0]) ++ rest = futures ++ a0 :: rest := by simp
        exact this ▸ jh2
    · rw [go, consumeStep_neg h]
      by_cases hsa : sync a0 = true
      · obtain ⟨ih1, ih2, ih3⟩ := ih (k + 1)
          (min (tokens + env.refill k) bcap) (env.pick k futures).2 hin'
        simp [collect_ok hf, hta, hsa, hf a0, ih1, ih3]
        have hmid : ((env.pick k futures).1 ++ (outputOf (go f sync truthy bcap
            env (k + 1) (min (tokens + env.refill k) bcap)
            (env.pick k futures).2 rest)).map Prod.fst).Perm
            (futures ++ rest) := by
          refine (ih2.append_left _).trans ?_
          rw [← List.append_assoc]
          exact (henv.1 k futures).append_right rest
        exact List.perm_middle.trans ((hmid.cons a0).trans List.perm_middle.symm)
      · rw [Bool.not_eq_true] at hsa
        obtain ⟨jh1, jh2, jh3⟩ := ih (k + 1)
          (min (tokens + env.refill k) bcap)
          ((env.pick k futures).2 ++ [a0]) hin'
        simp [collect_ok hf, hta, hsa, jh1, jh3]
        have h1 : ((env.pick k futures).2 ++ [a0]) ++ rest =
            (env.pick k futures).2 ++ (a0 :: rest) := by simp
        have h2 := jh2.append_left (env.pick k futures).1
        rw [h1, ← List.append_assoc] at h2
        exact h2.trans ((henv.1 k futures).append_right _)

/-- A run that reaches a falsy operation: the pulls are exactly the truthy
prefix followed by the falsy operation, the yielded pairs carry the initial
futures plus the truthy prefix, nothing is raised, and nothing after the
falsy operation is pulled or submitted. -/
lemma run_falsy {f : α → Except ε β} {g : α → β} {sync truthy : α → Bool}
    {bcap : ℕ} {env : Env α}
    (hf : ∀ a, f a = .ok (g a)) (henv : ValidEnv env)
    (x : α) (hx : truthy x = false) :
    ∀ (pre rest : List α) (k tokens : ℕ) (futures : List α),
      (∀ a ∈ pre, truthy a = true) →
      pulledOf (go f sync truthy bcap env k tokens futures (pre ++ x :: rest)) =
        pre ++ [x] ∧
      ((outputOf (go f sync truthy bcap env k tokens futures
        (pre ++ x :: rest))).map Prod.fst).Perm (futures ++ pre) ∧
      raisedOf (go f sync truthy bcap env k tokens futures
        (pre ++ x :: rest)) = [] := by
  intro pre
  induction pre with
  | nil =>
    intro rest k tokens futures _
    rw [List.nil_append]
    by_cases h : 1 ≤ min (tokens + env.refill k) bcap
    · rw [go, consumeStep_pos h]
      simp [collect_ok hf, hx]
      exact henv.2 futures
    · rw [go, consumeStep_neg h, collect_ok hf]
      simp [collect_ok hf, hx]
      exact ((henv.2 _).append_left _).trans (henv.1 k futures)
  | cons a0 pre' ih =>
    intro rest k tokens futures hin
    have hta : truthy a0 = true := hin a0 (by simp)
    have hin' : ∀ a ∈ pre', truthy a = true := fun a ha => hin a (by simp [ha])
    rw [List.cons_append]
    by_cases h : 1 ≤ min (tokens + env.refill k) bcap
    · rw [go, consumeStep_pos h]
      by_cases hsa : sync a0 = true
      · obtain ⟨ih1, ih2, ih3⟩ := ih rest (k + 1)
          (min (tokens + env.refill k) bcap - 1) futures hin'
        simp [hta, hsa, hf a0, ih1, ih3]
        exact (ih2.cons a0).trans List.perm_middle.symm
      · rw [Bool.not_eq_true] at hsa
        obtain ⟨jh1, jh2, jh3⟩ := ih rest (k + 1)
          (min (tokens + env.refill k) bcap - 1) (futures ++ [a0]) hin'
        simp [hta, hsa, jh1, jh3]
        have : (futures ++ [a0]) ++ pre' = futures ++ a0 :: pre' := by simp
        exact this ▸ jh2
    · rw [go, consumeStep_neg h]
      by_cases hsa : sync a0 = true
      · obtain ⟨ih1, ih2, ih3⟩ := ih rest (k + 1)
          (min (tokens + env.refill k) bcap) (env.pick k futures).2 hin'
        simp [collect_ok hf, hta, hsa, hf a0, ih1, ih3]
        have hmid : ((env.pick k futures).1 ++ (outputOf (go f sync truthy bcap
            env (k + 1) (min (tokens + env.refill k) bcap)
            (env.pick k futures).2 (pre' ++ x :: rest))).map Prod.fst).Perm
            (futures ++ pre') := by
          refine (ih2.append_left _).trans ?_
          rw [← List.append_assoc]
          exact (henv.1 k futures).append_right pre'
        exact List.perm_middle.trans ((hmid.cons a0).trans List.perm_middle.symm)
      · rw [Bool.not_eq_true] at hsa
        obtain ⟨jh1, jh2, jh3⟩ := ih rest (k + 1)
          (min (tokens + env.refill k) bcap)
          ((env.pick k futures).2 ++ [a0]) hin'
        simp [collect_ok hf, hta, hsa, jh1, jh3]
        have h1 : ((env.pick k futures).2 ++ [a0]) ++ pre' =
            (env.pick k futures).2 ++ (a0 :: pre') := by simp
        have h2 := jh2.append_left (env.pick k futures).1
        rw [h1, ← List.append_assoc] at h2
        exact h2.trans ((henv.1 k futures).append_right _)

/-- Under a limiter that never denies, an all-async truthy input is pulled
and submitted one operation per iteration, and every yield or raise happens
in the final drain. -/
lemma run_async_shape {f : α → Except ε β} {sync truthy : α → Bool}
    {bcap : ℕ} {env : Env α} (hb : 1 ≤ bcap) (hr : ∀ k, 1 ≤ env.refill k) :
    ∀ (input : List α) (k tokens : ℕ) (futures : List α),
      (∀ a ∈ input, truthy a = true) → (∀ a ∈ input, sync a = false) →
      go f sync truthy bcap env k tokens futures input =
        asyncShape futures input ++
          (collect f (env.drainOrder (futures ++ input))).1 := by
  intro input
  induction input with
  | nil =>
    intro k tokens futures _ _
    have h : 1 ≤ min (tokens + env.refill k) bcap :=
      le_min (by have := hr k; omega) hb
    rw [go, consumeStep_pos h]
    simp [asyncShape]
  | cons a0 rest ih =>
    intro k tokens futures hin hsy
    have h : 1 ≤ min (tokens + env.refill k) bcap :=
      le_min (by have := hr k; omega) hb
    rw [go, consumeStep_pos h]
    have hta : truthy a0 = true := hin a0 (by simp)
    have hsa : sync a0 = false := hsy a0 (by simp)
    simp only [hta, hsa, Bool.true_eq_false, if_neg Bool.false_ne_true]
    rw [ih (k + 1) (min (tokens + env.refill k) bcap - 1) (futures ++ [a0])
      (fun a ha => hin a (by simp [ha])) (fun a ha => hsy a (by simp [ha]))]
    simp [asyncShape]

/-- Under a limiter that never denies, an all-sync truthy input with a
callable that always succeeds is executed wholly inline: each iteration
pulls, runs and yields one operation; the initial futures are drained at the
end. -/
lemma run_sync_shape {f : α → Except ε β} {g : α → β} {sync truthy : α → Bool}
    {bcap : ℕ} {env : Env α} (hf : ∀ a, f a = .ok (g a))
    (hb : 1 ≤ bcap) (hr : ∀ k, 1 ≤ env.refill k) :
    ∀ (input : List α) (k tokens : ℕ) (futures : List α),
      (∀ a ∈ input, truthy a = true) → (∀ a ∈ input, sync a = true) →
      go f sync truthy bcap env k tokens futures input =
        (input.flatMap fun a =>
          [Ev.consume true, Ev.pulled a, Ev.inlineRun a, Ev.yielded a (g a)]) ++
        ([Ev.consume true, Ev.pulledNone] ++
          (collect f (env.drainOrder futures)).1) := by
  intro input
  induction input with
  | nil =>
    intro k tokens futures _ _
    have h : 1 ≤ min (tokens + env.refill k) bcap :=
      le_min (by have := hr k; omega) hb
    rw [go, consumeStep_pos h]
    simp
  | cons a0 rest ih =>
    intro k tokens futures hin hsy
    have h : 1 ≤ min (tokens + env.refill k) bcap :=
      le_min (by have := hr k; omega) hb
    rw [go, consumeStep_pos h]
    have hta : truthy a0 = true := hin a0 (by simp)
    have hsa : sync a0 = true := hsy a0 (by simp)
    simp only [hta, hsa, Bool.true_eq_false, if_neg Bool.false_ne_true,
      if_pos, hf a0]
    rw [ih (k + 1) (min (tokens + env.refill k) bcap - 1) futures
      (fun a ha => hin a (by simp [ha])) (fun a ha => hsy a (by simp [ha]))]
    simp

lemma validEnv_envGreedy : ValidEnv envGreedy := by
  constructor
  · intro k fs
    simp [envGreedy]
  · intro fs
    simp [envGreedy]

@[simp] lemma pulledOf_asyncShape (fut : List α) :
    ∀ l : List α, pulledOf (asyncShape fut l : List (Ev α β ε)) = l := by
  intro l
  induction l generalizing fut with
  | nil => rfl
  | cons a as ih => simp [asyncShape, ih]

@[simp] lemma submittedOf_asyncShape (fut : List α) :
    ∀ l : List α, submittedOf (asyncShape fut l : List (Ev α β ε)) = l := by
  intro l
  induction l generalizing fut with
  | nil => rfl
  | cons a as ih => simp [asyncShape, ih]

@[simp] lemma outputOf_asyncShape (fut : List α) :
    ∀ l : List α, outputOf (asyncShape fut l : List (Ev α β ε)) = [] := by
  intro l
  induction l generalizing fut with
  | nil => rfl
  | cons a as ih => simp [asyncShape, ih]

@[simp] lemma raisedOf_asyncShape (fut : List α) :
    ∀ l : List α, raisedOf (asyncShape fut l : List (Ev α β ε)) = [] := by
  intro l
  induction l generalizing fut with
  | nil => rfl
  | cons a as ih => simp [asyncShape, ih]

lemma debitsOf_sync_flatMap (g : α → β) :
    ∀ input : List α,
      debitsOf ((input.flatMap fun a => [Ev.consume true, Ev.pulled a,
        Ev.inlineRun a, Ev.yielded a (g a)]) : List (Ev α β ε)) =
        input.length := by
  intro input
  induction input with
  | nil => rfl
  | cons a as ih => simp [ih, Nat.add_comm]

lemma submittedOf_sync_flatMap (g : α → β) :
    ∀ input : List α,
      submittedOf ((input.flatMap fun a => [Ev.consume true, Ev.pulled a,
        Ev.inlineRun a, Ev.yielded a (g a)]) : List (Ev α β ε)) = [] := by
  intro input
  induction input with
  | nil => rfl
  | cons a as ih => simp [ih]

lemma outputOf_sync_flatMap (g : α → β) :
    ∀ input : List α,
      outputOf ((input.flatMap fun a => [Ev.consume true, Ev.pulled a,
        Ev.inlineRun a, Ev.yielded a (g a)]) : List (Ev α β ε)) =
        input.map fun a => (a, g a) := by
  intro input
  induction input with
  | nil => rfl
  | cons a as ih => simp [ih]

/-- C2 (amended): operations with a true sync predicate are executed inline
on the control thread and their pair is yielded immediately at that point,
with no pool submission; the rate limiter however is not bypassed: the loop
debits one token at the top of every iteration, including the iterations
that pull sync operations (input.length + 1 debits in total here). -/
theorem C2_theorem {α β ε : Type} (f : α → Except ε β) (g : α → β)
    (sync truthy : α → Bool) (bcap tokens0 : ℕ) (env : Env α)
    (input : List α)
    (hf : ∀ a, f a = .ok (g a)) (henv : ValidEnv env)
    (hb : 1 ≤ bcap) (hr : ∀ k, 1 ≤ env.refill k)
    (hin : ∀ a ∈ input, truthy a = true) (hsy : ∀ a ∈ input, sync a = true) :
    exec_stream f sync truthy bcap tokens0 env input =
      (input.flatMap fun a => [Ev.consume true, Ev.pulled a,
        Ev.inlineRun a, Ev.yielded a (g a)]) ++
        [Ev.consume true, Ev.pulledNone] ∧
    submittedOf (exec_stream f sync truthy bcap tokens0 env input) = [] ∧
    outputOf (exec_stream f sync truthy bcap tokens0 env input) =
      input.map (fun a => (a, g a)) ∧
    debitsOf (exec_stream f sync truthy bcap tokens0 env input) =
      input.length + 1 := by
  have hd0 : env.drainOrder [] = [] := (henv.2 []).eq_nil
  have hshape := run_sync_shape hf hb hr input 0 tokens0 [] hin hsy
  rw [exec_stream, hshape, hd0]
  rw [show collect f ([] : List α) = ([], false) from rfl]
  refine ⟨by simp, ?_, ?_, ?_⟩
  · simp [submittedOf_sync_flatMap g input]
  · simp [outputOf_sync_flatMap g input]
  · simp [debitsOf_sync_flatMap g input]

/-- C3: every truthy operation pulled from the input is executed exactly
once, inline or via exactly one pool submission (multiset equality between
the truthy pulls and the inline runs plus submissions), and on an all-truthy
input with an always-succeeding callable the yielded pairs are exactly one
per input operation. -/
theorem C3_theorem {α β ε : Type} (f : α → Except ε β) (g : α → β)
    (sync truthy : α → Bool) (bcap tokens0 : ℕ) (env : Env α)
    (input : List α)
    (henv : ValidEnv env) (hin : ∀ a ∈ input, truthy a = true)
    (hf : ∀ a, f a = .ok (g a)) :
    ((pulledOf (exec_stream f sync truthy bcap tokens0 env input)).filter
      truthy).Perm
      (inlinedOf (exec_stream f sync truthy bcap tokens0 env input) ++
        submittedOf (exec_stream f sync truthy bcap tokens0 env input)) ∧
    pulledOf (exec_stream f sync truthy bcap tokens0 env input) = input ∧
    ((outputOf (exec_stream f sync truthy bcap tokens0 env input)).map
      Prod.fst).Perm input := by
  obtain ⟨h1, h2, _⟩ := run_ok hf henv input 0 tokens0 [] hin
  exact ⟨admission_perm f sync truthy bcap env input 0 tokens0 [], h1,
    by simpa using h2⟩

/-- C4 (amended): the executor control loop does not bound the number of
in-flight tasks by the pool capacity; the in-flight count recorded at each
submission is bounded only by the number of input operations.  (Bounding
concurrent execution to capacity worker threads happens inside the external
pool, not in this loop.) -/
theorem C4_theorem {α β ε : Type} (f : α → Except ε β)
    (sync truthy : α → Bool) (bcap tokens0 : ℕ) (env : Env α)
    (input : List α) (henv : ValidEnv env) :
    ∀ n ∈ inflightOf (exec_stream f sync truthy bcap tokens0 env input),
      n ≤ input.length := by
  intro n hn
  have := inflight_le f sync truthy bcap env henv input 0 tokens0 [] n hn
  simpa using this

/-- C4 is false as stated: with pool capacity 2, a rate that never denies
and three pooled operations, the third submission is recorded with three
tasks in flight. -/
theorem C4_counterexample :
    ¬ inflightBounded 2 (exec_stream
      (fun n => (Except.ok n : Except Unit ℕ)) (fun _ => false) pyTruthyNat
      5 5 envGreedy [1, 2, 3]) := by
  unfold inflightBounded
  decide

/-- C5: when a pooled task's callable raises, nothing is raised at
submission time: every operation is still pulled and submitted; the
exception surfaces when the failing future's result is collected, after the
pairs of the futures collected before it, and it terminates the sequence
(the raise is the last event and no pair after it). -/
theorem C5_theorem {α β ε : Type} (f : α → Except ε β) (g : α → β)
    (sync truthy : α → Bool) (bcap tokens0 : ℕ) (env : Env α)
    (input pre post : List α) (x : α) (e : ε)
    (hb : 1 ≤ bcap) (hr : ∀ k, 1 ≤ env.refill k)
    (hin : ∀ a ∈ input, truthy a = true) (hsy : ∀ a ∈ input, sync a = false)
    (hdr : env.drainOrder input = pre ++ x :: post)
    (hpre : ∀ y ∈ pre, f y = .ok (g y)) (hx : f x = .error e) :
    exec_stream f sync truthy bcap tokens0 env input =
      (asyncShape [] input ++ (pre.map fun y => Ev.yielded y (g y))) ++
        [Ev.raised e] ∧
    submittedOf (exec_stream f sync truthy bcap tokens0 env input) = input ∧
    pulledOf (exec_stream f sync truthy bcap tokens0 env input) = input ∧
    outputOf (exec_stream f sync truthy bcap tokens0 env input) =
      pre.map (fun y => (y, g y)) ∧
    raisedOf (exec_stream f sync truthy bcap tokens0 env input) = [e] ∧
    (exec_stream f sync truthy bcap tokens0 env input).getLast? =
      some (Ev.raised e) := by
  have hshape : go f sync truthy bcap env 0 tokens0 [] input =
      asyncShape [] input ++
        (collect f (env.drainOrder ([] ++ input))).1 :=
    run_async_shape hb hr input 0 tokens0 [] hin hsy
  rw [exec_stream, hshape, List.nil_append, hdr,
    collect_error hx pre post hpre]
  refine ⟨by simp, by simp, by simp, by simp, by simp, ?_⟩
  rw [← List.append_assoc]
  exact List.getLast?_concat _

/-- C6: a falsy value pulled from the input (and likewise plain exhaustion)
ends the stream: the pulls are exactly the truthy prefix plus the falsy
value, nothing beyond it is pulled or submitted, and all in-flight futures
are awaited and yielded exactly once before the sequence terminates without
an exception. -/
theorem C6_theorem {α β ε : Type} (f : α → Except ε β) (g : α → β)
    (sync truthy : α → Bool) (bcap tokens0 : ℕ) (env : Env α)
    (pre rest : List α) (x : α)
    (henv : ValidEnv env) (hf : ∀ a, f a = .ok (g a))
    (hx : truthy x = false) (hpre : ∀ a ∈ pre, truthy a = true) :
    pulledOf (exec_stream f sync truthy bcap tokens0 env (pre ++ x :: rest)) =
      pre ++ [x] ∧
    ((outputOf (exec_stream f sync truthy bcap tokens0 env
      (pre ++ x :: rest))).map Prod.fst).Perm pre ∧
    raisedOf (exec_stream f sync truthy bcap tokens0 env
      (pre ++ x :: rest)) = [] ∧
    pulledOf (exec_stream f sync truthy bcap tokens0 env pre) = pre ∧
    ((outputOf (exec_stream f sync truthy bcap tokens0 env pre)).map
      Prod.fst).Perm pre := by
  obtain ⟨h1, h2, h3⟩ := run_falsy hf henv x hx pre rest 0 tokens0 [] hpre
  obtain ⟨h4, h5, _⟩ := run_ok hf henv pre 0 tokens0 [] hpre
  exact ⟨h1, by simpa using h2, h3, h4, by simpa using h5⟩

/-- C1 is false as stated: merge_streams drops falsy elements.  With integer
records under Python truthiness, the singleton sorted inputs [0] and [1]
merge to [1]: the element 0 is never emitted, so the output is not a
permutation of the two inputs. -/
theorem C1_counterexample :
    sortedByB leNat [0] = true ∧ sortedByB leNat [1] = true ∧
    ¬ (merge_streams pyTruthyNat leNat [0] [1]).Perm ([0] ++ [1]) := by
  refine ⟨by decide, by decide, ?_⟩
  rw [show merge_streams pyTruthyNat leNat [0] [1] = [1] from by
    simp [merge_streams, drain, pyTruthyNat, leNat]]
  decide

/-- C1 (amended): for sequences of truthy elements, each sorted under a
total comparator, merge_streams yields a sequence sorted under the
comparator that contains every element of both inputs exactly once. -/
theorem C1_theorem {α : Type} (truthy : α → Bool) (cmp : α → α → Bool)
    (htot : ∀ a b : α, cmp a b = true ∨ cmp b a = true)
    (A B : List α)
    (hA : ∀ a ∈ A, truthy a = true) (hB : ∀ b ∈ B, truthy b = true)
    (sA : sortedByB cmp A = true) (sB : sortedByB cmp B = true) :
    sortedByB cmp (merge_streams truthy cmp A B) = true ∧
    (merge_streams truthy cmp A B).Perm (A ++ B) :=
  ⟨(merge_sorted htot A B hA hB sA sB).1, merge_perm A B hA hB⟩

theorem C1_witness :
    (∀ a ∈ [1, 3, 5], pyTruthyNat a = true) ∧
    sortedByB leNat [1, 3, 5] = true ∧ sortedByB leNat [2, 4] = true ∧
    sortedByB leNat (merge_streams pyTruthyNat leNat [1, 3, 5] [2, 4]) =
      true ∧
    (merge_streams pyTruthyNat leNat [1, 3, 5] [2, 4]).Perm
      ([1, 3, 5] ++ [2, 4]) := by
  have htot : ∀ a b : ℕ, leNat a b = true ∨ leNat b a = true := by
    intro a b
    simp [leNat]
    omega
  have h := C1_theorem pyTruthyNat leNat htot [1, 3, 5] [2, 4]
    (by decide) (by decide) (by decide) (by decide)
  exact ⟨by decide, by decide, by decide, h.1, h.2⟩

/-- C10: when the head of one stream is falsy while the other stream's head
is truthy, merge_streams drops the falsy head and that stream's entire
remainder, and emits exactly the other stream's head and remainder. -/
theorem C10_theorem {α : Type} (truthy : α → Bool) (cmp : α → α → Bool)
    (x : α) (hx : truthy x = false) (s1 s2 : List α) :
    (∀ b, truthy b = true →
      merge_streams truthy cmp (x :: s1) (b :: s2) = b :: s2) ∧
    (∀ a, truthy a = true →
      merge_streams truthy cmp (a :: s1) (x :: s2) = a :: s1) := by
  constructor
  · intro b hb
    rw [merge_streams, if_neg (by simp [hx])]
    simp [drain, hx, hb]
  · intro a ha
    rw [merge_streams, if_neg (by simp [hx])]
    simp [drain, hx, ha]

theorem C10_witness :
    pyTruthyNat 0 = false ∧
    merge_streams pyTruthyNat leNat [0, 9] [7, 8] = [7, 8] ∧
    merge_streams pyTruthyNat leNat [5, 9] [0, 8] = [5, 9] := by
  have h := C10_theorem pyTruthyNat leNat 0 (by decide) [9] [8]
  exact ⟨by decide, h.1 7 (by decide), h.2 5 (by decide)⟩

/-- C2 is false as stated: a sync operation is executed inline and never
submitted to the pool, but the rate limiter is not bypassed — running the
single sync operation 1 debits two tokens (one in its own iteration, one in
the exhaustion iteration), where a limiter-bypassing executor would debit at
most the one token of the exhaustion iteration. -/
theorem C2_counterexample :
    pulledOf (exec_stream (fun n => (Except.ok (2 * n) : Except Unit ℕ))
      (fun _ => true) pyTruthyNat 5 5 envGreedy [1]) = [1] ∧
    inlinedOf (exec_stream (fun n => (Except.ok (2 * n) : Except Unit ℕ))
      (fun _ => true) pyTruthyNat 5 5 envGreedy [1]) = [1] ∧
    submittedOf (exec_stream (fun n => (Except.ok (2 * n) : Except Unit ℕ))
      (fun _ => true) pyTruthyNat 5 5 envGreedy [1]) = [] ∧
    ¬ debitsOf (exec_stream (fun n => (Except.ok (2 * n) : Except Unit ℕ))
      (fun _ => true) pyTruthyNat 5 5 envGreedy [1]) ≤ 1 := by
  decide

theorem C2_witness :
    (∀ a ∈ [1, 2], pyTruthyNat a = true) ∧
    exec_stream (fun n => (Except.ok (2 * n) : Except Unit ℕ))
      (fun _ => true) pyTruthyNat 5 5 envGreedy [1, 2] =
      ([1, 2].flatMap fun a => [Ev.consume true, Ev.pulled a,
        Ev.inlineRun a, Ev.yielded a (2 * a)]) ++
        [Ev.consume true, Ev.pulledNone] ∧
    submittedOf (exec_stream (fun n => (Except.ok (2 * n) : Except Unit ℕ))
      (fun _ => true) pyTruthyNat 5 5 envGreedy [1, 2]) = [] ∧
    outputOf (exec_stream (fun n => (Except.ok (2 * n) : Except Unit ℕ))
      (fun _ => true) pyTruthyNat 5 5 envGreedy [1, 2]) =
      [1, 2].map (fun a => (a, 2 * a)) ∧
    debitsOf (exec_stream (fun n => (Except.ok (2 * n) : Except Unit ℕ))
      (fun _ => true) pyTruthyNat 5 5 envGreedy [1, 2]) = 3 := by
  have h := C2_theorem (fun n => (Except.ok (2 * n) : Except Unit ℕ))
    (fun n => 2 * n) (fun _ => true) pyTruthyNat 5 5 envGreedy [1, 2]
    (fun a => rfl) validEnv_envGreedy (by decide) (fun k => Nat.le_refl 1)
    (by decide) (fun a _ => rfl)
  exact ⟨by decide, h.1, h.2.1, h.2.2.1, h.2.2.2⟩

theorem C3_witness :
    (∀ a ∈ [1, 2, 3, 4, 5], pyTruthyNat a = true) ∧
    (((pulledOf (exec_stream (fun n => (Except.ok (2 * n) : Except Unit ℕ))
      (fun n => decide (n % 2 = 0)) pyTruthyNat 5 5 envGreedy
      [1, 2, 3, 4, 5])).filter pyTruthyNat).Perm
      (inlinedOf (exec_stream (fun n => (Except.ok (2 * n) : Except Unit ℕ))
        (fun n => decide (n % 2 = 0)) pyTruthyNat 5 5 envGreedy
        [1, 2, 3, 4, 5]) ++
       submittedOf (exec_stream (fun n => (Except.ok (2 * n) : Except Unit ℕ))
        (fun n => decide (n % 2 = 0)) pyTruthyNat 5 5 envGreedy
        [1, 2, 3, 4, 5]))) ∧
    pulledOf (exec_stream (fun n => (Except.ok (2 * n) : Except Unit ℕ))
      (fun n => decide (n % 2 = 0)) pyTruthyNat 5 5 envGreedy
      [1, 2, 3, 4, 5]) = [1, 2, 3, 4, 5] ∧
    ((outputOf (exec_stream (fun n => (Except.ok (2 * n) : Except Unit ℕ))
      (fun n => decide (n % 2 = 0)) pyTruthyNat 5 5 envGreedy
      [1, 2, 3, 4, 5])).map Prod.fst).Perm [1, 2, 3, 4, 5] := by
  have h := C3_theorem (fun n => (Except.ok (2 * n) : Except Unit ℕ))
    (fun n => 2 * n) (fun n => decide (n % 2 = 0)) pyTruthyNat 5 5 envGreedy
    [1, 2, 3, 4, 5] validEnv_envGreedy (by decide) (fun a => rfl)
  exact ⟨by decide, h.1, h.2.1, h.2.2⟩

theorem C4_witness :
    inflightBounded 3 (exec_stream
      (fun n => (Except.ok n : Except Unit ℕ)) (fun _ => false) pyTruthyNat
      5 5 envGreedy [1, 2, 3]) := by
  intro n hn
  exact C4_theorem (fun n => (Except.ok n : Except Unit ℕ)) (fun _ => false)
    pyTruthyNat 5 5 envGreedy [1, 2, 3] validEnv_envGreedy n hn

theorem C5_witness :
    ((fun n => if n = 20 then (Except.error () : Except Unit ℕ)
      else Except.ok (n + 1)) 20 = Except.error ()) ∧
    submittedOf (exec_stream
      (fun n => if n = 20 then (Except.error () : Except Unit ℕ)
        else Except.ok (n + 1))
      (fun _ => false) pyTruthyNat 5 5 envGreedy [10, 20]) = [10, 20] ∧
    outputOf (exec_stream
      (fun n => if n = 20 then (Except.error () : Except Unit ℕ)
        else Except.ok (n + 1))
      (fun _ => false) pyTruthyNat 5 5 envGreedy [10, 20]) = [(10, 11)] ∧
    raisedOf (exec_stream
      (fun n => if n = 20 then (Except.error () : Except Unit ℕ)
        else Except.ok (n + 1))
      (fun _ => false) pyTruthyNat 5 5 envGreedy [10, 20]) = [()] ∧
    (exec_stream
      (fun n => if n = 20 then (Except.error () : Except Unit ℕ)
        else Except.ok (n + 1))
      (fun _ => false) pyTruthyNat 5 5 envGreedy [10, 20]).getLast? =
      some (Ev.raised ()) := by
  have h := C5_theorem
    (fun n => if n = 20 then (Except.error () : Except Unit ℕ)
      else Except.ok (n + 1))
    (fun n => n + 1) (fun _ => false) pyTruthyNat 5 5 envGreedy
    [10, 20] [10] [] 20 ()
    (by decide) (fun k => Nat.le_refl 1) (by decide) (fun a _ => rfl)
    rfl (by intro y hy; rcases List.mem_singleton.mp hy with rfl; rfl) rfl
  exact ⟨rfl, h.2.1, by rw [h.2.2.2.1]; rfl, h.2.2.2.2.1, h.2.2.2.2.2⟩

theorem C6_witness :
    pyTruthyNat 0 = false ∧
    pulledOf (exec_stream (fun n => (Except.ok (2 * n) : Except Unit ℕ))
      (fun n => decide (n = 1)) pyTruthyNat 5 5 envGreedy
      ([1, 2] ++ 0 :: [3])) = [1, 2] ++ [0] ∧
    ((outputOf (exec_stream (fun n => (Except.ok (2 * n) : Except Unit ℕ))
      (fun n => decide (n = 1)) pyTruthyNat 5 5 envGreedy
      ([1, 2] ++ 0 :: [3]))).map Prod.fst).Perm [1, 2] ∧
    raisedOf (exec_stream (fun n => (Except.ok (2 * n) : Except Unit ℕ))
      (fun n => decide (n = 1)) pyTruthyNat 5 5 envGreedy
      ([1, 2] ++ 0 :: [3])) = [] := by
  have h := C6_theorem (fun n => (Except.ok (2 * n) : Except Unit ℕ))
    (fun n => 2 * n) (fun n => decide (n = 1)) pyTruthyNat 5 5 envGreedy
    [1, 2] [3] 0 validEnv_envGreedy (fun a => rfl) (by decide) (by decide)
  exact ⟨by decide, h.1, h.2.1, h.2.2.1⟩

end ExecLemmas

/-- C7: wrapping a callable that fails on its first two invocations and
succeeds on the third, retry invokes the callable exactly 3 times, the call
chain completes without propagating an exception (the run returns), and the
sleeps are backoff 0 = 0.5s after the first failure and backoff 1 = 1.0s
after the second, the attempt counter starting at 0 and incremented by 1 per
failure. -/
theorem C7_theorem (fuel : ℕ) (h : 3 ≤ fuel) :
    retryRun failTwice fuel 0 =
      some ⟨none, 3, [backoff 0, backoff 1]⟩ ∧
    backoff 0 = 1 / 2 ∧ backoff 1 = 1 := by
  obtain ⟨n, rfl⟩ : ∃ n, fuel = n + 3 := ⟨fuel - 3, by omega⟩
  refine ⟨?_, by norm_num [backoff], by norm_num [backoff]⟩
  have e2 : retryRun failTwice (n + 1) 2 = some ⟨none, 1, []⟩ := by
    rw [retryRun]
    rfl
  have e1 : retryRun failTwice (n + 2) 1 = some ⟨none, 2, [backoff 1]⟩ := by
    rw [show n + 2 = (n + 1) + 1 from rfl, retryRun]
    simp [failTwice, e2]
  rw [show n + 3 = (n + 2) + 1 from rfl, retryRun]
  simp [failTwice, e1]

theorem C7_witness :
    3 ≤ 3 ∧
    retryRun failTwice 3 0 = some ⟨none, 3, [backoff 0, backoff 1]⟩ ∧
    backoff 0 = 1 / 2 ∧ backoff 1 = 1 :=
  ⟨by decide, C7_theorem 3 (by decide)⟩

/-- C8: retry never propagates an exception of the wrapped callable to its
own caller: a callable failing on every invocation keeps it retrying past
any bound of attempts with neither a return nor a raise (the fuel-indexed
run is never a completed chain), while a callable that eventually succeeds
makes it return normally; the exception type plays no role. -/
theorem C8_theorem {β ε : Type} :
    (∀ (beh : ℕ → Except ε β), (∀ n, ∃ e, beh n = .error e) →
      ∀ fuel a, retryRun beh fuel a = none) ∧
    (∀ (beh : ℕ → Except ε β) (n a : ℕ),
      (∀ m, m < n → ∃ e, beh (a + m) = .error e) →
      (∃ b, beh (a + n) = .ok b) →
      ∀ fuel, n < fuel → ∃ r, retryRun beh fuel a = some r) := by
  constructor
  · intro beh hfail fuel
    induction fuel with
    | zero => intro a; rfl
    | succ f ih =>
      intro a
      obtain ⟨e, he⟩ := hfail a
      simp [retryRun, he, ih (a + 1)]
  · intro beh n
    induction n with
    | zero =>
      intro a _ hok fuel hf
      obtain ⟨f, rfl⟩ := Nat.exists_eq_add_of_lt hf
      obtain ⟨b, hb⟩ := hok
      simp at hb
      simp [Nat.add_comm, retryRun, hb]
    | succ n ih =>
      intro a hfail hok fuel hf
      obtain ⟨f, rfl⟩ := Nat.exists_eq_add_of_lt hf
      obtain ⟨e, he⟩ := hfail 0 (by omega)
      simp at he
      have hsucc : n + 1 + f + 1 = (n + f + 1) + 1 := by omega
      rw [hsucc, retryRun, he]
      obtain ⟨r, hr⟩ := ih (a + 1)
        (fun m hm => by
          have := hfail (m + 1) (by omega)
          simpa [Nat.add_assoc, Nat.add_comm 1 m] using this)
        (by
          obtain ⟨b, hb⟩ := hok
          exact ⟨b, by simpa [Nat.add_assoc, Nat.add_comm 1 n] using hb⟩)
        (n + f + 1) (by omega)
      simp [hr]

theorem C8_witness :
    retryRun (fun _ => (Except.error () : Except Unit Unit)) 5 0 = none ∧
    ∃ r, retryRun failTwice 3 0 = some r :=
  ⟨C8_theorem.1 (fun _ => Except.error ()) (fun n => ⟨(), rfl⟩) 5 0,
   C8_theorem.2 failTwice 2 0
    (by
      intro m hm
      match m, hm with
      | 0, _ => exact ⟨(), rfl⟩
      | 1, _ => exact ⟨(), rfl⟩)
    ⟨(), rfl⟩ 3 (by decide)⟩

/-- C9: whenever a retry call chain completes, the value returned to the
caller is Python None — the wrapped callable's return value is discarded. -/
theorem C9_theorem {β ε : Type} (beh : ℕ → Except ε β) :
    ∀ (fuel a : ℕ) (r : RetryOut β),
      retryRun beh fuel a = some r → r.ret = none := by
  intro fuel
  induction fuel with
  | zero =>
    intro a r h
    simp [retryRun] at h
  | succ f ih =>
    intro a r h
    rw [retryRun] at h
    match hb : beh a with
    | .ok b =>
      rw [hb] at h
      simp at h
      rw [← h]
    | .error e =>
      rw [hb] at h
      match hr : retryRun beh f (a + 1) with
      | none =>
        rw [hr] at h
        simp at h
      | some r' =>
        rw [hr] at h
        simp at h
        rw [← h]
        exact ih (a + 1) r' hr

theorem C9_witness :
    retryRun (fun _ => (Except.ok 42 : Except Unit ℕ)) 1 0 =
      some ⟨none, 1, []⟩ ∧
    (⟨none, 1, []⟩ : RetryOut ℕ).ret = none :=
  ⟨rfl, C9_theorem (fun _ => (Except.ok 42 : Except Unit ℕ)) 1 0
    ⟨none, 1, []⟩ rfl⟩

end Fioctl
